import Mathlib

/-!
Shallow embedding of the mathematical core of `src/bot.py`
(`simplicial_complex_from_edges`, `betti_numbers_1d`, `euler_characteristic`)
together with the graph-theoretic specification notions used to verify it.

Vertex labels are an arbitrary linearly ordered type `α` (the source uses
strings compared by Python's total order).  Python's `set` of vertices is
modelled as a duplicate-free list grown by insert-if-absent (its iteration
order is irrelevant because the result is sorted), `sorted` is modelled by
`List.insertionSort`, the adjacency `dict` is modelled as an association
list, and a `KeyError` is modelled by an `Option` failure.
-/

namespace CohomologyBot

variable {α : Type*} [LinearOrder α]

/-! ## Complex Builder: `simplicial_complex_from_edges` -/

/-- Python tuple order on pairs, used by `sorted(edges_sorted)`. -/
def pairLe (p q : α × α) : Prop :=
  p.1 < q.1 ∨ (p.1 = q.1 ∧ p.2 ≤ q.2)

instance : DecidableRel (pairLe (α := α)) := fun p q =>
  inferInstanceAs (Decidable (_ ∨ _))

instance : IsTotal (α × α) (pairLe (α := α)) where
  total p q := by
    rcases lt_trichotomy p.1 q.1 with h | h | h
    · exact Or.inl (Or.inl h)
    · rcases le_total p.2 q.2 with h2 | h2
      · exact Or.inl (Or.inr ⟨h, h2⟩)
      · exact Or.inr (Or.inr ⟨h.symm, h2⟩)
    · exact Or.inr (Or.inl h)

instance : IsTrans (α × α) (pairLe (α := α)) where
  trans p q r hpq hqr := by
    rcases hpq with h1 | ⟨h1, h1'⟩ <;> rcases hqr with h2 | ⟨h2, h2'⟩
    · exact Or.inl (h1.trans h2)
    · exact Or.inl (h2 ▸ h1)
    · exact Or.inl (h1 ▸ h2)
    · exact Or.inr ⟨h1.trans h2, h1'.trans h2'⟩

instance : IsAntisymm (α × α) (pairLe (α := α)) where
  antisymm p q hpq hqp := by
    rcases hpq with h1 | ⟨h1, h1'⟩ <;> rcases hqp with h2 | ⟨h2, h2'⟩
    · exact absurd h2 (lt_asymm h1)
    · exact absurd h1 (h2 ▸ lt_irrefl _)
    · exact absurd h2 (h1 ▸ lt_irrefl _)
    · exact Prod.ext h1 (le_antisymm h1' h2')

/-- Python `set.add`: add an element unless it is already present.
The list stays duplicate-free. -/
def insertVertex (vs : List α) (x : α) : List α :=
  if x ∈ vs then vs else vs ++ [x]

/-- One iteration of the `for (u, v) in edges` loop of
`simplicial_complex_from_edges`: self-loops are skipped, otherwise the
canonical pair `(a, b) = sorted((u, v))` is formed, both endpoints are added
to the vertex set and the pair is appended to `edges_sorted` unless already
present. -/
def buildStep (acc : List α × List (α × α)) (p : α × α) : List α × List (α × α) :=
  if p.1 = p.2 then acc
  else
    (insertVertex (insertVertex acc.1 (min p.1 p.2)) (max p.1 p.2),
      if (min p.1 p.2, max p.1 p.2) ∈ acc.2 then acc.2
      else acc.2 ++ [(min p.1 p.2, max p.1 p.2)])

/-- Embedding of `simplicial_complex_from_edges` from `src/bot.py`: fold the
per-pair processing over the raw input, then return `sorted(vertices)` and
`sorted(edges_sorted)`. -/
def simplicial_complex_from_edges (raw : List (α × α)) : List α × List (α × α) :=
  ((raw.foldl buildStep ([], [])).1.insertionSort (· ≤ ·),
   (raw.foldl buildStep ([], [])).2.insertionSort pairLe)

/-! ## Invariant Engine: adjacency dictionary -/

/-- Python dict lookup `adj[k]`: `none` models a `KeyError`. -/
def alistGet (m : List (α × List α)) (k : α) : Option (List α) :=
  (m.find? (fun q => decide (q.1 = k))).map (fun q => q.2)

/-- Python `adj[k].append(x)` (the mutation part, assuming the key exists). -/
def alistAppend (m : List (α × List α)) (k x : α) : List (α × List α) :=
  m.map (fun q => if q.1 = k then (q.1, q.2 ++ [x]) else q)

/-- One iteration of the `for (u, v) in edges` loop building the adjacency
dict: `adj[u].append(v)` then `adj[v].append(u)`, failing (KeyError) if
either endpoint is not a key. -/
def addEdgeAdj (m : List (α × List α)) (u v : α) : Option (List (α × List α)) :=
  match alistGet m u with
  | none => none
  | some _ =>
    match alistGet (alistAppend m u v) v with
    | none => none
    | some _ => some (alistAppend (alistAppend m u v) v u)

/-- Folds `addEdgeAdj` over the edge list. -/
def buildAdjAux (m : List (α × List α)) : List (α × α) → Option (List (α × List α))
  | [] => some m
  | p :: rest =>
    match addEdgeAdj m p.1 p.2 with
    | none => none
    | some m2 => buildAdjAux m2 rest

/-- Embedding of `adj = {v: [] for v in vertices}` followed by the
edge-insertion loop of `betti_numbers_1d`. -/
def buildAdj (vertices : List α) (edges : List (α × α)) : Option (List (α × List α)) :=
  buildAdjAux (vertices.map (fun v => (v, ([] : List α)))) edges

/-- Membership in the adjacency structure: `y` occurs in the neighbour list
stored under key `x`. -/
def adjMem (m : List (α × List α)) (x y : α) : Prop :=
  ∃ l, alistGet m x = some l ∧ y ∈ l

/-- All labels occurring in the adjacency structure (keys and neighbour-list
entries); used only as a termination measure for the traversal. -/
def adjSupport (m : List (α × List α)) : Finset α :=
  (m.map Prod.fst ++ (m.map Prod.snd).flatten).toFinset

/-- Total number of neighbour-list entries; used only as a termination
measure for the traversal. -/
def adjSize (m : List (α × List α)) : ℕ :=
  ((m.map Prod.snd).flatten).length

theorem alistGet_some_mem {m : List (α × List α)} {k : α} {l : List α}
    (h : alistGet m k = some l) : (k, l) ∈ m := by
  unfold alistGet at h
  cases hf : m.find? (fun q => decide (q.1 = k)) with
  | none => simp [hf] at h
  | some q =>
    have hq : q ∈ m := List.mem_of_find?_eq_some hf
    have hk : q.1 = k := by
      have := List.find?_some hf
      simpa using this
    have hl : q.2 = l := by simp [hf] at h; exact h
    rw [← hk, ← hl]
    simpa using hq

theorem length_le_adjSize {m : List (α × List α)} {k : α} {l : List α}
    (h : alistGet m k = some l) : l.length ≤ adjSize m := by
  have hm : (k, l) ∈ m := alistGet_some_mem h
  have hsub : l ∈ (m.map Prod.snd) := List.mem_map.mpr ⟨(k, l), hm, rfl⟩
  unfold adjSize
  induction m with
  | nil => simp at hm
  | cons q rest ih =>
    rcases List.mem_cons.mp hsub with hq | hq
    · simp [hq]
    · have := List.Sublist.length_le (List.sublist_flatten_of_mem hq)
      simp only [List.map_cons, List.flatten_cons, List.length_append]
      omega

theorem mem_adjSupport_of_mem_val {m : List (α × List α)} {k : α} {l : List α} {y : α}
    (h : alistGet m k = some l) (hy : y ∈ l) : y ∈ adjSupport m := by
  have hm : (k, l) ∈ m := alistGet_some_mem h
  unfold adjSupport
  rw [List.mem_toFinset, List.mem_append]
  exact Or.inr (List.mem_flatten.mpr ⟨l, List.mem_map.mpr ⟨(k, l), hm, rfl⟩, hy⟩)

/-! ## Invariant Engine: depth-first traversal -/

/-- Embedding of the `dfs` inner function of `betti_numbers_1d`: a stack-based
loop that pops a node, skips it if visited, and otherwise records it as
visited and pushes its not-yet-visited neighbours.  Besides the visited set
it returns the list of nodes in the order they were added to `visited`
(ghost information used to state the visit-exactly-once property); a failed
dictionary lookup yields `none` (Python `KeyError`). -/
def dfsLoop (adj : List (α × List α)) (visited : Finset α) (stack : List α) :
    Option (Finset α × List α) :=
  match stack with
  | [] => some (visited, [])
  | node :: rest =>
    if hnode : node ∈ visited then dfsLoop adj visited rest
    else
      match hget : alistGet adj node with
      | none => none
      | some neis =>
        match dfsLoop adj (insert node visited)
            ((neis.filter (fun x => decide (x ∉ insert node visited))).reverse ++ rest) with
        | none => none
        | some (w, tr) => some (w, node :: tr)
termination_by
  ((adjSupport adj ∪ stack.toFinset) \ visited).card * (adjSize adj + 1) + stack.length
decreasing_by
  · have hsub : (adjSupport adj ∪ rest.toFinset) \ visited ⊆
        (adjSupport adj ∪ (node :: rest).toFinset) \ visited := by
      intro x hx
      rw [Finset.mem_sdiff] at hx ⊢
      refine ⟨?_, hx.2⟩
      rcases Finset.mem_union.mp hx.1 with h | h
      · exact Finset.mem_union_left _ h
      · exact Finset.mem_union_right _ (by simp [List.toFinset_cons]; right; simpa using h)
    have h1 := Finset.card_le_card hsub
    have h2 := Nat.mul_le_mul_right (adjSize adj + 1) h1
    simp only [List.length_cons]
    omega
  · have hnode' : node ∈ (adjSupport adj ∪ (node :: rest).toFinset) \ visited := by
      rw [Finset.mem_sdiff]
      exact ⟨Finset.mem_union_right _ (by simp), hnode⟩
    have hsub : (adjSupport adj ∪
          ((neis.filter (fun x => decide (x ∉ insert node visited))).reverse ++ rest).toFinset)
            \ insert node visited ⊆
        (((adjSupport adj ∪ (node :: rest).toFinset) \ visited).erase node) := by
      intro x hx
      rw [Finset.mem_sdiff] at hx
      have hxne : x ≠ node := by
        intro hxeq
        exact hx.2 (by rw [hxeq]; exact Finset.mem_insert_self _ _)
      rw [Finset.mem_erase, Finset.mem_sdiff]
      refine ⟨hxne, ?_, fun hv => hx.2 (Finset.mem_insert_of_mem hv)⟩
      rcases Finset.mem_union.mp hx.1 with h | h
      · exact Finset.mem_union_left _ h
      · rw [List.toFinset_append, Finset.mem_union] at h
        rcases h with h | h
        · have hxn : x ∈ neis := by
            have := List.mem_toFinset.mp h
            rw [List.mem_reverse] at this
            exact (List.mem_filter.mp this).1
          exact Finset.mem_union_left _ (mem_adjSupport_of_mem_val hget hxn)
        · exact Finset.mem_union_right _ (by simp [List.toFinset_cons]; right; simpa using h)
    have hcard : ((adjSupport adj ∪
          ((neis.filter (fun x => decide (x ∉ insert node visited))).reverse ++ rest).toFinset)
            \ insert node visited).card + 1 ≤
        ((adjSupport adj ∪ (node :: rest).toFinset) \ visited).card := by
      have h1 := Finset.card_le_card hsub
      rw [Finset.card_erase_of_mem hnode'] at h1
      have h2 : 1 ≤ ((adjSupport adj ∪ (node :: rest).toFinset) \ visited).card :=
        Finset.card_pos.mpr ⟨node, hnode'⟩
      omega
    have hlen : ((neis.filter (fun x => decide (x ∉ insert node visited))).reverse ++ rest).length
        ≤ adjSize adj + rest.length := by
      rw [List.length_append, List.length_reverse]
      have := List.length_filter_le (fun x => decide (x ∉ insert node visited)) neis
      have h2 := length_le_adjSize hget
      omega
    set c2 := ((adjSupport adj ∪
        ((neis.filter (fun x => decide (x ∉ insert node visited))).reverse ++ rest).toFinset)
          \ insert node visited).card with hc2
    set c1 := ((adjSupport adj ∪ (node :: rest).toFinset) \ visited).card with hc1
    have hmul : (c2 + 1) * (adjSize adj + 1) ≤ c1 * (adjSize adj + 1) :=
      Nat.mul_le_mul_right _ hcard
    have hexp : (c2 + 1) * (adjSize adj + 1) = c2 * (adjSize adj + 1) + adjSize adj + 1 := by
      ring
    simp only [List.length_cons]
    omega

/-- Embedding of the component-counting loop of `betti_numbers_1d`:
`for v in vertices: if v not in visited: components += 1; dfs(v)`.
Returns the final component count, the visited set, and the concatenated
visit trace. -/
def countComponents (adj : List (α × List α)) :
    List α → Finset α → ℕ → Option (ℕ × Finset α × List α)
  | [], visited, comps => some (comps, visited, [])
  | v :: vs, visited, comps =>
    if v ∈ visited then countComponents adj vs visited comps
    else
      match dfsLoop adj visited [v] with
      | none => none
      | some (w, tr) =>
        match countComponents adj vs w (comps + 1) with
        | none => none
        | some (n, w2, tr2) => some (n, w2, tr ++ tr2)

/-- Embedding of `betti_numbers_1d` from `src/bot.py`: build the adjacency
dict, count connected components by repeated DFS, and return
`(beta0, beta1)` with `beta1 = E - V + beta0` in exact integer arithmetic.
`none` models an uncaught `KeyError`. -/
def betti_numbers_1d (vertices : List α) (edges : List (α × α)) : Option (ℤ × ℤ) :=
  match buildAdj vertices edges with
  | none => none
  | some adj =>
    match countComponents adj vertices ∅ 0 with
    | none => none
    | some (comps, _, _) =>
      some ((comps : ℤ), (edges.length : ℤ) - (vertices.length : ℤ) + (comps : ℤ))

/-- Embedding of `euler_characteristic` from `src/bot.py`. -/
def euler_characteristic (beta0 beta1 : ℤ) : ℤ :=
  beta0 - beta1

/-! ## Specification-side graph notions -/

/-- One undirected edge step of the graph described by an edge list. -/
def adjRel (edges : List (α × α)) (x y : α) : Prop :=
  (x, y) ∈ edges ∨ (y, x) ∈ edges

/-- Reachability (connectivity) in the graph described by an edge list. -/
def Reach (edges : List (α × α)) : α → α → Prop :=
  Relation.ReflTransGen (adjRel edges)

/-- A system of representatives of the connected components of the graph
with the given vertex list and edge list: one vertex from each component.
Its cardinality is the number of connected components. -/
def IsRepSystem (vertices : List α) (edges : List (α × α)) (R : Finset α) : Prop :=
  (∀ r ∈ R, r ∈ vertices) ∧
  (∀ v ∈ vertices, ∃ r ∈ R, Reach edges r v) ∧
  (∀ r ∈ R, ∀ r2 ∈ R, Reach edges r r2 → r = r2)

/-- The canonicalized non-loop pairs of a raw input sequence, in input
order: self-loops dropped, each pair normalized to `(min, max)`. -/
def canonKept (raw : List (α × α)) : List (α × α) :=
  raw.filterMap (fun p => if p.1 = p.2 then none else some (min p.1 p.2, max p.1 p.2))

/-! ## Lemmas about the Complex Builder -/

theorem mem_insertVertex {vs : List α} {x y : α} :
    x ∈ insertVertex vs y ↔ x ∈ vs ∨ x = y := by
  unfold insertVertex
  split
  · rename_i hmem
    constructor
    · exact Or.inl
    · rintro (h | rfl)
      · exact h
      · exact hmem
  · simp

theorem nodup_insertVertex {vs : List α} (h : vs.Nodup) (y : α) :
    (insertVertex vs y).Nodup := by
  unfold insertVertex
  split
  · exact h
  · rename_i hmem
    simpa [List.nodup_append] using ⟨h, hmem⟩

theorem canonKept_cons_loop {p : α × α} (hp : p.1 = p.2) (raw : List (α × α)) :
    canonKept (p :: raw) = canonKept raw := by
  simp [canonKept, hp]

theorem canonKept_cons_edge {p : α × α} (hp : ¬ p.1 = p.2) (raw : List (α × α)) :
    canonKept (p :: raw) = (min p.1 p.2, max p.1 p.2) :: canonKept raw := by
  simp [canonKept, hp]

theorem foldl_buildStep_edges_mem (raw : List (α × α)) (acc : List α × List (α × α))
    (e : α × α) :
    e ∈ (raw.foldl buildStep acc).2 ↔ e ∈ acc.2 ∨ e ∈ canonKept raw := by
  induction raw generalizing acc with
  | nil => simp [canonKept]
  | cons p rest ih =>
    rw [List.foldl_cons, ih]
    by_cases hp : p.1 = p.2
    · rw [canonKept_cons_loop hp]
      simp [buildStep, hp]
    · rw [canonKept_cons_edge hp]
      simp only [buildStep, if_neg hp, List.mem_cons]
      by_cases hdup : (min p.1 p.2, max p.1 p.2) ∈ acc.2
      · simp only [if_pos hdup]
        constructor
        · rintro (h | h)
          · exact Or.inl h
          · exact Or.inr (Or.inr h)
        · rintro (h | rfl | h)
          · exact Or.inl h
          · exact Or.inl hdup
          · exact Or.inr h
      · simp only [if_neg hdup, List.mem_append, List.mem_singleton]
        tauto


theorem foldl_buildStep_edges_nodup (raw : List (α × α)) (acc : List α × List (α × α))
    (h : acc.2.Nodup) : (raw.foldl buildStep acc).2.Nodup := by
  induction raw generalizing acc with
  | nil => exact h
  | cons p rest ih =>
    rw [List.foldl_cons]
    refine ih _ ?_
    by_cases hp : p.1 = p.2
    · simpa [buildStep, hp] using h
    · simp only [buildStep, if_neg hp]
      by_cases hdup : (min p.1 p.2, max p.1 p.2) ∈ acc.2
      · simpa [if_pos hdup] using h
      · simp only [if_neg hdup]
        simpa [List.nodup_append] using ⟨h, hdup⟩

theorem foldl_buildStep_verts_mem (raw : List (α × α)) (acc : List α × List (α × α))
    (v : α) :
    v ∈ (raw.foldl buildStep acc).1 ↔
      v ∈ acc.1 ∨ ∃ e ∈ canonKept raw, v = e.1 ∨ v = e.2 := by
  induction raw generalizing acc with
  | nil => simp [canonKept]
  | cons p rest ih =>
    rw [List.foldl_cons, ih]
    by_cases hp : p.1 = p.2
    · rw [canonKept_cons_loop hp]
      simp [buildStep, hp]
    · rw [canonKept_cons_edge hp]
      simp only [buildStep, if_neg hp, mem_insertVertex, List.mem_cons]
      constructor
      · rintro (((h | rfl) | rfl) | h)
        · exact Or.inl h
        · exact Or.inr ⟨_, Or.inl rfl, Or.inl rfl⟩
        · exact Or.inr ⟨_, Or.inl rfl, Or.inr rfl⟩
        · obtain ⟨e, he, hv⟩ := h
          exact Or.inr ⟨e, Or.inr he, hv⟩
      · rintro (h | ⟨e, he, hv⟩)
        · exact Or.inl (Or.inl (Or.inl h))
        · rcases he with rfl | he
          · rcases hv with h1 | h1
            · exact Or.inl (Or.inl (Or.inr h1))
            · exact Or.inl (Or.inr h1)
          · exact Or.inr ⟨e, he, hv⟩

theorem foldl_buildStep_verts_nodup (raw : List (α × α)) (acc : List α × List (α × α))
    (h : acc.1.Nodup) : (raw.foldl buildStep acc).1.Nodup := by
  induction raw generalizing acc with
  | nil => exact h
  | cons p rest ih =>
    rw [List.foldl_cons]
    refine ih _ ?_
    by_cases hp : p.1 = p.2
    · simpa [buildStep, hp] using h
    · simp only [buildStep, if_neg hp]
      exact nodup_insertVertex (nodup_insertVertex h _) _

theorem canonKept_fst_lt_snd {raw : List (α × α)} {e : α × α}
    (he : e ∈ canonKept raw) : e.1 < e.2 := by
  unfold canonKept at he
  obtain ⟨p, _, hp⟩ := List.mem_filterMap.mp he
  by_cases h : p.1 = p.2
  · simp [h] at hp
  · simp only [if_neg h] at hp
    obtain rfl := Option.some_injective _ hp
    exact min_lt_max.mpr h

theorem canonKept_eq_self {l : List (α × α)} (h : ∀ e ∈ l, e.1 < e.2) :
    canonKept l = l := by
  induction l with
  | nil => rfl
  | cons e rest ih =>
    have he : e.1 < e.2 := h e (List.mem_cons_self e rest)
    rw [canonKept_cons_edge (ne_of_lt he)]
    rw [min_eq_left he.le, max_eq_right he.le, ih (fun x hx => h x (List.mem_cons_of_mem _ hx))]

theorem insertionSort_eq_of_perm {β : Type*} {r : β → β → Prop} [DecidableRel r]
    [IsTotal β r] [IsTrans β r] [IsAntisymm β r] {l1 l2 : List β} (h : l1.Perm l2) :
    l1.insertionSort r = l2.insertionSort r :=
  List.eq_of_perm_of_sorted
    (((List.perm_insertionSort r l1).trans h).trans (List.perm_insertionSort r l2).symm)
    (List.sorted_insertionSort r l1) (List.sorted_insertionSort r l2)

theorem insertionSort_eq_of_mem_iff {β : Type*} [DecidableEq β] {r : β → β → Prop}
    [DecidableRel r] [IsTotal β r] [IsTrans β r] [IsAntisymm β r] {l1 l2 : List β}
    (h1 : l1.Nodup) (h2 : l2.Nodup) (h : ∀ x, x ∈ l1 ↔ x ∈ l2) :
    l1.insertionSort r = l2.insertionSort r :=
  insertionSort_eq_of_perm
    (List.perm_of_nodup_nodup_toFinset_eq h1 h2 (by ext x; simpa using h x))

theorem build_edges_mem (raw : List (α × α)) (e : α × α) :
    e ∈ (simplicial_complex_from_edges raw).2 ↔ e ∈ canonKept raw := by
  unfold simplicial_complex_from_edges
  rw [(List.perm_insertionSort pairLe _).mem_iff]
  simpa using foldl_buildStep_edges_mem raw ([], []) e

theorem build_verts_mem (raw : List (α × α)) (v : α) :
    v ∈ (simplicial_complex_from_edges raw).1 ↔
      ∃ e ∈ canonKept raw, v = e.1 ∨ v = e.2 := by
  unfold simplicial_complex_from_edges
  rw [(List.perm_insertionSort _ _).mem_iff]
  simpa using foldl_buildStep_verts_mem raw ([], []) v

theorem build_edges_nodup (raw : List (α × α)) :
    (simplicial_complex_from_edges raw).2.Nodup := by
  unfold simplicial_complex_from_edges
  exact (List.perm_insertionSort pairLe _).nodup_iff.mpr
    (foldl_buildStep_edges_nodup raw ([], []) List.nodup_nil)

theorem build_verts_nodup (raw : List (α × α)) :
    (simplicial_complex_from_edges raw).1.Nodup := by
  unfold simplicial_complex_from_edges
  exact (List.perm_insertionSort _ _).nodup_iff.mpr
    (foldl_buildStep_verts_nodup raw ([], []) List.nodup_nil)

theorem build_edges_sorted (raw : List (α × α)) :
    (simplicial_complex_from_edges raw).2.Sorted pairLe :=
  List.sorted_insertionSort pairLe _

theorem build_verts_sorted (raw : List (α × α)) :
    (simplicial_complex_from_edges raw).1.Sorted (fun x y => x ≤ y) :=
  List.sorted_insertionSort _ _

theorem build_edges_lt (raw : List (α × α)) {e : α × α}
    (he : e ∈ (simplicial_complex_from_edges raw).2) : e.1 < e.2 :=
  canonKept_fst_lt_snd ((build_edges_mem raw e).mp he)

theorem build_endpoints_mem_verts (raw : List (α × α)) {e : α × α}
    (he : e ∈ (simplicial_complex_from_edges raw).2) :
    e.1 ∈ (simplicial_complex_from_edges raw).1 ∧
      e.2 ∈ (simplicial_complex_from_edges raw).1 := by
  have hc := (build_edges_mem raw e).mp he
  exact ⟨(build_verts_mem raw e.1).mpr ⟨e, hc, Or.inl rfl⟩,
    (build_verts_mem raw e.2).mpr ⟨e, hc, Or.inr rfl⟩⟩

theorem build_eq_of_canonKept_finset_eq {raw1 raw2 : List (α × α)}
    (h : (canonKept raw1).toFinset = (canonKept raw2).toFinset) :
    simplicial_complex_from_edges raw1 = simplicial_complex_from_edges raw2 := by
  have hmem : ∀ e, e ∈ canonKept raw1 ↔ e ∈ canonKept raw2 := by
    intro e
    rw [← List.mem_toFinset, ← List.mem_toFinset, h]
  unfold simplicial_complex_from_edges
  refine Prod.ext ?_ ?_
  · refine insertionSort_eq_of_mem_iff
      (foldl_buildStep_verts_nodup raw1 ([], []) List.nodup_nil)
      (foldl_buildStep_verts_nodup raw2 ([], []) List.nodup_nil) (fun v => ?_)
    rw [foldl_buildStep_verts_mem, foldl_buildStep_verts_mem]
    simp only [List.not_mem_nil, false_or]
    constructor
    · rintro ⟨e, he, hv⟩; exact ⟨e, (hmem e).mp he, hv⟩
    · rintro ⟨e, he, hv⟩; exact ⟨e, (hmem e).mpr he, hv⟩
  · refine insertionSort_eq_of_mem_iff
      (foldl_buildStep_edges_nodup raw1 ([], []) List.nodup_nil)
      (foldl_buildStep_edges_nodup raw2 ([], []) List.nodup_nil) (fun e => ?_)
    rw [foldl_buildStep_edges_mem, foldl_buildStep_edges_mem]
    simp only [List.not_mem_nil, false_or]
    exact hmem e

theorem canonKept_filter_ne (raw : List (α × α)) :
    canonKept (raw.filter (fun p => decide (p.1 ≠ p.2))) = canonKept raw := by
  induction raw with
  | nil => rfl
  | cons p rest ih =>
    by_cases hp : p.1 = p.2
    · rw [canonKept_cons_loop hp, ← ih]
      congr 1
      simp [hp]
    · rw [canonKept_cons_edge hp, ← ih]
      rw [List.filter_cons_of_pos (by simpa using hp)]
      rw [canonKept_cons_edge hp]

/-- Claim C4: the result of `build` depends only on the set of canonicalized
non-loop pairs of its input; permuting pairs, swapping the components of a
pair, or repeating a pair leaves both the returned complex and the computed
invariants unchanged. -/
theorem claim_C4_build_canonical_invariance {raw1 raw2 : List (α × α)}
    (h : (canonKept raw1).toFinset = (canonKept raw2).toFinset) :
    simplicial_complex_from_edges raw1 = simplicial_complex_from_edges raw2 ∧
    betti_numbers_1d (simplicial_complex_from_edges raw1).1
        (simplicial_complex_from_edges raw1).2 =
      betti_numbers_1d (simplicial_complex_from_edges raw2).1
        (simplicial_complex_from_edges raw2).2 := by
  have heq := build_eq_of_canonKept_finset_eq h
  exact ⟨heq, by rw [heq]⟩

/-- Witness for C4 at a concrete input: `[(1,2),(3,1),(1,2)]` and
`[(2,1),(1,3)]` have the same canonical pair set, hence identical complexes
and invariants. -/
theorem claim_C4_witness :
    (canonKept [((1 : ℕ), 2), (3, 1), (1, 2)]).toFinset =
        (canonKept [((2 : ℕ), 1), (1, 3)]).toFinset ∧
    simplicial_complex_from_edges [((1 : ℕ), 2), (3, 1), (1, 2)] =
      simplicial_complex_from_edges [((2 : ℕ), 1), (1, 3)] :=
  ⟨by decide, (claim_C4_build_canonical_invariance (by decide)).1⟩

/-- Claim C5: the complex returned by `build` has duplicate-free sorted
vertices, duplicate-free sorted edges, every edge strictly increasing (hence
no self-loops), and every edge endpoint present in the vertex list. -/
theorem claim_C5_build_result_guarantee (raw : List (α × α)) :
    (simplicial_complex_from_edges raw).1.Nodup ∧
    (simplicial_complex_from_edges raw).1.Sorted (fun x y => x ≤ y) ∧
    (simplicial_complex_from_edges raw).2.Nodup ∧
    (simplicial_complex_from_edges raw).2.Sorted pairLe ∧
    (∀ e ∈ (simplicial_complex_from_edges raw).2, e.1 < e.2) ∧
    (∀ e ∈ (simplicial_complex_from_edges raw).2,
      e.1 ∈ (simplicial_complex_from_edges raw).1 ∧
        e.2 ∈ (simplicial_complex_from_edges raw).1) :=
  ⟨build_verts_nodup raw, build_verts_sorted raw, build_edges_nodup raw,
    build_edges_sorted raw, fun _ he => build_edges_lt raw he,
    fun _ he => build_endpoints_mem_verts raw he⟩

/-- Claim C6: `build` discards every self-loop pair entirely (filtering them
out of the input does not change the result), and the single input `(a, a)`
produces the empty complex. -/
theorem claim_C6_self_loop_rejection (raw : List (α × α)) (a : α) :
    simplicial_complex_from_edges raw =
      simplicial_complex_from_edges (raw.filter (fun p => decide (p.1 ≠ p.2))) ∧
    simplicial_complex_from_edges [(a, a)] = ([], []) := by
  constructor
  · exact (build_eq_of_canonKept_finset_eq (by rw [canonKept_filter_ne])).symm
  · simp [simplicial_complex_from_edges, buildStep]

/-- Claim C10: `build` is idempotent as a round trip on its own output:
feeding the edge list of `build raw` back into `build` reproduces the same
complex. -/
theorem claim_C10_build_roundtrip (raw : List (α × α)) :
    simplicial_complex_from_edges (simplicial_complex_from_edges raw).2 =
      simplicial_complex_from_edges raw := by
  have hlt : ∀ e ∈ (simplicial_complex_from_edges raw).2, e.1 < e.2 :=
    fun _ he => build_edges_lt raw he
  have hck : canonKept (simplicial_complex_from_edges raw).2 =
      (simplicial_complex_from_edges raw).2 := canonKept_eq_self hlt
  refine Prod.ext ?_ ?_
  · show ((simplicial_complex_from_edges raw).2.foldl buildStep
      ([], [])).1.insertionSort _ = _
    refine insertionSort_eq_of_mem_iff
      (foldl_buildStep_verts_nodup _ ([], []) List.nodup_nil)
      (foldl_buildStep_verts_nodup raw ([], []) List.nodup_nil) (fun v => ?_)
    rw [foldl_buildStep_verts_mem, foldl_buildStep_verts_mem, hck]
    simp only [List.not_mem_nil, false_or]
    constructor
    · rintro ⟨e, he, hv⟩
      exact ⟨e, (build_edges_mem raw e).mp he, hv⟩
    · rintro ⟨e, he, hv⟩
      exact ⟨e, (build_edges_mem raw e).mpr he, hv⟩
  · show ((simplicial_complex_from_edges raw).2.foldl buildStep
      ([], [])).2.insertionSort _ = _
    have h1 : (((simplicial_complex_from_edges raw).2.foldl buildStep
        ([], [])).2).insertionSort pairLe =
        ((simplicial_complex_from_edges raw).2).insertionSort pairLe := by
      refine insertionSort_eq_of_mem_iff
        (foldl_buildStep_edges_nodup _ ([], []) List.nodup_nil)
        (build_edges_nodup raw) (fun e => ?_)
      rw [foldl_buildStep_edges_mem, hck]
      simp
    rw [h1, (build_edges_sorted raw).insertionSort_eq]

/-! ## Lemmas about the adjacency dictionary -/

theorem alistGet_initial (vs : List α) (k : α) :
    alistGet (vs.map (fun v => (v, ([] : List α)))) k =
      if k ∈ vs then some [] else none := by
  induction vs with
  | nil => simp [alistGet]
  | cons v rest ih =>
    by_cases hv : v = k
    · subst hv
      simp [alistGet]
    · rw [List.map_cons]
      have hfind : alistGet ((v, ([] : List α)) :: rest.map (fun v => (v, ([] : List α)))) k =
          alistGet (rest.map (fun v => (v, ([] : List α)))) k := by
        unfold alistGet
        rw [List.find?_cons_of_neg _ (by simpa using hv)]
      rw [hfind, ih]
      by_cases hk : k ∈ rest
      · rw [if_pos hk, if_pos (List.mem_cons_of_mem _ hk)]
      · rw [if_neg hk, if_neg (fun hc => by
          rcases List.mem_cons.mp hc with h1 | h1
          exacts [hv h1.symm, hk h1])]

theorem alistGet_alistAppend (m : List (α × List α)) (k x j : α) :
    alistGet (alistAppend m k x) j =
      if j = k then (alistGet m j).map (fun l => l ++ [x]) else alistGet m j := by
  induction m with
  | nil => simp [alistGet, alistAppend]
  | cons q rest ih =>
    have hhead : (if q.1 = k then (q.1, q.2 ++ [x]) else q).1 = q.1 := by
      split <;> rfl
    by_cases hq : q.1 = j
    · unfold alistAppend alistGet
      rw [List.map_cons, List.find?_cons_of_pos _ (by simp only [hhead]; simp [hq]),
        List.find?_cons_of_pos _ (by simp [hq])]
      by_cases hjk : j = k
      · rw [if_pos hjk, if_pos (hq.trans hjk)]
        simp
      · rw [if_neg hjk, if_neg (fun h => hjk (hq ▸ h))]
    · unfold alistAppend alistGet
      rw [List.map_cons, List.find?_cons_of_neg _ (by simp only [hhead]; simp [hq]),
        List.find?_cons_of_neg _ (by simp [hq])]
      exact ih

theorem alistGet_alistAppend_isSome (m : List (α × List α)) (k x j : α) :
    (alistGet (alistAppend m k x) j).isSome = (alistGet m j).isSome := by
  rw [alistGet_alistAppend]
  split
  · cases alistGet m j <;> simp
  · rfl

theorem adjMem_alistAppend (m : List (α × List α)) (k x0 j y : α) :
    adjMem (alistAppend m k x0) j y ↔
      adjMem m j y ∨ (j = k ∧ y = x0 ∧ ∃ l, alistGet m k = some l) := by
  unfold adjMem
  rw [alistGet_alistAppend]
  by_cases hjk : j = k
  · subst hjk
    rw [if_pos rfl]
    cases hm : alistGet m j with
    | none => simp
    | some l => simp [List.mem_append]
  · rw [if_neg hjk]
    simp [hjk]

theorem addEdgeAdj_eq_some {m m2 : List (α × List α)} {u v : α}
    (h : addEdgeAdj m u v = some m2) :
    m2 = alistAppend (alistAppend m u v) v u ∧
      (∃ l, alistGet m u = some l) ∧ (∃ l, alistGet m v = some l) := by
  unfold addEdgeAdj at h
  cases hu : alistGet m u with
  | none => rw [hu] at h; exact absurd h (by simp)
  | some lu =>
    rw [hu] at h
    cases hv : alistGet (alistAppend m u v) v with
    | none => rw [hv] at h; exact absurd h (by simp)
    | some lv =>
      rw [hv] at h
      have hv2 : (alistGet m v).isSome := by
        have := alistGet_alistAppend_isSome m u v v
        rw [hv] at this
        simpa using this.symm
      obtain ⟨lv2, hlv2⟩ := Option.isSome_iff_exists.mp hv2
      refine ⟨(Option.some_injective _ h).symm, ⟨lu, rfl⟩, ⟨lv2, hlv2⟩⟩

theorem addEdgeAdj_isSome {m : List (α × List α)} {u v : α}
    (hu : (alistGet m u).isSome) (hv : (alistGet m v).isSome) :
    (addEdgeAdj m u v).isSome := by
  unfold addEdgeAdj
  obtain ⟨lu, hlu⟩ := Option.isSome_iff_exists.mp hu
  rw [hlu]
  have hv2 : (alistGet (alistAppend m u v) v).isSome := by
    rw [alistGet_alistAppend_isSome]; exact hv
  obtain ⟨lv, hlv⟩ := Option.isSome_iff_exists.mp hv2
  rw [hlv]
  simp

theorem adjMem_addEdgeAdj {m m2 : List (α × List α)} {u v : α}
    (h : addEdgeAdj m u v = some m2) (x y : α) :
    adjMem m2 x y ↔ adjMem m x y ∨ (x = u ∧ y = v) ∨ (x = v ∧ y = u) := by
  obtain ⟨rfl, ⟨lu, hlu⟩, ⟨lv, hlv⟩⟩ := addEdgeAdj_eq_some h
  rw [adjMem_alistAppend, adjMem_alistAppend]
  have hgetv : ∃ l, alistGet (alistAppend m u v) v = some l := by
    rw [alistGet_alistAppend]
    split
    · exact ⟨lv ++ [v], by rw [hlv]; rfl⟩
    · exact ⟨lv, hlv⟩
  constructor
  · rintro ((hm | ⟨rfl, rfl, _⟩) | ⟨rfl, rfl, _⟩)
    · exact Or.inl hm
    · exact Or.inr (Or.inl ⟨rfl, rfl⟩)
    · exact Or.inr (Or.inr ⟨rfl, rfl⟩)
  · rintro (hm | ⟨rfl, rfl⟩ | ⟨rfl, rfl⟩)
    · exact Or.inl (Or.inl hm)
    · exact Or.inl (Or.inr ⟨rfl, rfl, lu, hlu⟩)
    · exact Or.inr ⟨rfl, rfl, hgetv⟩

theorem buildAdjAux_keys {m adj : List (α × List α)} {es : List (α × α)}
    (h : buildAdjAux m es = some adj) (j : α) :
    (alistGet adj j).isSome = (alistGet m j).isSome := by
  induction es generalizing m with
  | nil =>
    obtain rfl : m = adj := by simpa [buildAdjAux] using h
    rfl
  | cons p rest ih =>
    unfold buildAdjAux at h
    cases hadd : addEdgeAdj m p.1 p.2 with
    | none => rw [hadd] at h; exact absurd h (by simp)
    | some m2 =>
      rw [hadd] at h
      obtain ⟨rfl, -, -⟩ := addEdgeAdj_eq_some hadd
      rw [ih h, alistGet_alistAppend_isSome, alistGet_alistAppend_isSome]

theorem buildAdjAux_isSome {m : List (α × List α)} {es : List (α × α)}
    (h : ∀ p ∈ es, (alistGet m p.1).isSome ∧ (alistGet m p.2).isSome) :
    (buildAdjAux m es).isSome := by
  induction es generalizing m with
  | nil => simp [buildAdjAux]
  | cons p rest ih =>
    obtain ⟨hu, hv⟩ := h p (List.mem_cons_self p rest)
    obtain ⟨m2, hm2⟩ := Option.isSome_iff_exists.mp (addEdgeAdj_isSome hu hv)
    unfold buildAdjAux
    rw [hm2]
    refine ih (fun q hq => ?_)
    obtain ⟨rfl, -, -⟩ := addEdgeAdj_eq_some hm2
    rw [alistGet_alistAppend_isSome, alistGet_alistAppend_isSome,
      alistGet_alistAppend_isSome, alistGet_alistAppend_isSome]
    exact h q (List.mem_cons_of_mem _ hq)

theorem buildAdjAux_adjMem {m adj : List (α × List α)} {es : List (α × α)}
    (h : buildAdjAux m es = some adj) (x y : α) :
    adjMem adj x y ↔ adjMem m x y ∨ adjRel es x y := by
  induction es generalizing m with
  | nil =>
    obtain rfl : m = adj := by simpa [buildAdjAux] using h
    simp [adjRel]
  | cons p rest ih =>
    unfold buildAdjAux at h
    cases hadd : addEdgeAdj m p.1 p.2 with
    | none => rw [hadd] at h; exact absurd h (by simp)
    | some m2 =>
      rw [hadd] at h
      rw [ih h, adjMem_addEdgeAdj hadd]
      unfold adjRel
      simp only [List.mem_cons]
      constructor
      · rintro ((hm | ⟨rfl, rfl⟩ | ⟨rfl, rfl⟩) | hrel | hrel)
        · exact Or.inl hm
        · exact Or.inr (Or.inl (Or.inl (Prod.mk.eta.symm ▸ rfl)))
        · exact Or.inr (Or.inr (Or.inl (Prod.mk.eta.symm ▸ rfl)))
        · exact Or.inr (Or.inl (Or.inr hrel))
        · exact Or.inr (Or.inr (Or.inr hrel))
      · rintro (hm | (hp | hrel) | (hp | hrel))
        · exact Or.inl (Or.inl hm)
        · have h1 : x = p.1 ∧ y = p.2 := by
            constructor
            · exact congrArg Prod.fst hp
            · exact congrArg Prod.snd hp
          exact Or.inl (Or.inr (Or.inl h1))
        · exact Or.inr (Or.inl hrel)
        · have h1 : y = p.1 ∧ x = p.2 := by
            constructor
            · exact congrArg Prod.fst hp
            · exact congrArg Prod.snd hp
          exact Or.inl (Or.inr (Or.inr ⟨h1.2, h1.1⟩))
        · exact Or.inr (Or.inr hrel)

theorem buildAdj_keys {vs : List α} {es : List (α × α)} {adj : List (α × List α)}
    (h : buildAdj vs es = some adj) (j : α) :
    (alistGet adj j).isSome ↔ j ∈ vs := by
  rw [buildAdjAux_keys h j, alistGet_initial]
  split
  · rename_i hmem; simpa using hmem
  · rename_i hmem; simpa using hmem

theorem buildAdj_isSome {vs : List α} {es : List (α × α)}
    (h : ∀ p ∈ es, p.1 ∈ vs ∧ p.2 ∈ vs) : (buildAdj vs es).isSome := by
  refine buildAdjAux_isSome (fun p hp => ?_)
  rw [alistGet_initial, alistGet_initial, if_pos (h p hp).1, if_pos (h p hp).2]
  exact ⟨rfl, rfl⟩

theorem buildAdj_adjMem {vs : List α} {es : List (α × α)} {adj : List (α × List α)}
    (h : buildAdj vs es = some adj) (x y : α) :
    adjMem adj x y ↔ adjRel es x y := by
  rw [buildAdjAux_adjMem h]
  have hinit : ¬ adjMem (vs.map (fun v => (v, ([] : List α)))) x y := by
    rintro ⟨l, hl, hyl⟩
    rw [alistGet_initial] at hl
    split at hl
    · obtain rfl : ([] : List α) = l := by simpa using hl
      simp at hyl
    · exact absurd hl (by simp)
  constructor
  · rintro (hm | hrel)
    · exact absurd hm hinit
    · exact hrel
  · exact Or.inr

omit [LinearOrder α] in
theorem adjRel_symm {es : List (α × α)} {x y : α} (h : adjRel es x y) : adjRel es y x :=
  h.elim Or.inr Or.inl

theorem buildAdj_adjMem_isSome {vs : List α} {es : List (α × α)}
    {adj : List (α × List α)} (h : buildAdj vs es = some adj) {x y : α}
    (hxy : adjMem adj x y) : (alistGet adj y).isSome := by
  have h1 : adjRel es x y := (buildAdj_adjMem h x y).mp hxy
  have h2 : adjMem adj y x := (buildAdj_adjMem h y x).mpr (adjRel_symm h1)
  obtain ⟨l, hl, -⟩ := h2
  rw [hl]
  rfl

/-! ## Lemmas about the depth-first traversal -/

/-- Reachability along the adjacency structure. -/
def ReachA (adj : List (α × List α)) : α → α → Prop :=
  Relation.ReflTransGen (adjMem adj)

theorem dfsLoop_nil (adj : List (α × List α)) (visited : Finset α) :
    dfsLoop adj visited [] = some (visited, []) :=
  dfsLoop.eq_1 adj visited

theorem dfsLoop_cons_mem {adj : List (α × List α)} {visited : Finset α}
    {node : α} {rest : List α} (h : node ∈ visited) :
    dfsLoop adj visited (node :: rest) = dfsLoop adj visited rest := by
  rw [dfsLoop.eq_2, dif_pos h]

theorem dfsLoop_cons_none {adj : List (α × List α)} {visited : Finset α}
    {node : α} {rest : List α} (h : node ∉ visited)
    (hget : alistGet adj node = none) :
    dfsLoop adj visited (node :: rest) = none := by
  rw [dfsLoop.eq_2, dif_neg h]
  split
  · rfl
  · rename_i neis hne
    rw [hget] at hne
    exact absurd hne (by simp)

theorem dfsLoop_cons_some {adj : List (α × List α)} {visited : Finset α}
    {node : α} {rest : List α} {neis : List α} (h : node ∉ visited)
    (hget : alistGet adj node = some neis) :
    dfsLoop adj visited (node :: rest) =
      match dfsLoop adj (insert node visited)
          ((neis.filter (fun x => decide (x ∉ insert node visited))).reverse ++ rest) with
      | none => none
      | some (w, tr) => some (w, node :: tr) := by
  rw [dfsLoop.eq_2, dif_neg h]
  split
  · rename_i hne
    rw [hget] at hne
    exact absurd hne (by simp)
  · rename_i neis2 hne
    rw [hget] at hne
    obtain rfl : neis2 = neis := (Option.some_injective _ hne).symm
    rfl

theorem dfsLoop_isSome {adj : List (α × List α)}
    (hvals : ∀ x y, adjMem adj x y → (alistGet adj y).isSome)
    (visited : Finset α) (stack : List α) :
    (∀ x ∈ stack, x ∈ visited ∨ (alistGet adj x).isSome) →
    (dfsLoop adj visited stack).isSome := by
  induction visited, stack using dfsLoop.induct adj with
  | case1 visited =>
    intro _
    rw [dfsLoop_nil]
    rfl
  | case2 visited node rest h ih =>
    intro hstack
    rw [dfsLoop_cons_mem h]
    exact ih (fun x hx => hstack x (List.mem_cons_of_mem _ hx))
  | case3 visited node rest h hget =>
    intro hstack
    rcases hstack node (List.mem_cons_self _ _) with hv | hs
    · exact absurd hv h
    · rw [hget] at hs
      exact absurd hs (by simp)
  | case4 visited node rest h neis hget hrec ih =>
    intro hstack
    refine absurd (ih ?_) (by rw [hrec]; simp)
    intro x hx
    rcases List.mem_append.mp hx with hx1 | hx2
    · have hxn : x ∈ neis := (List.mem_filter.mp (List.mem_reverse.mp hx1)).1
      exact Or.inr (hvals node x ⟨neis, hget, hxn⟩)
    · rcases hstack x (List.mem_cons_of_mem _ hx2) with hv | hs
      · exact Or.inl (Finset.mem_insert_of_mem hv)
      · exact Or.inr hs
  | case5 visited node rest h neis hget w tr hrec ih =>
    intro _
    rw [dfsLoop_cons_some h hget, hrec]
    rfl

theorem dfsLoop_some_shape {adj : List (α × List α)}
    (visited : Finset α) (stack : List α) :
    ∀ {w : Finset α} {tr : List α}, dfsLoop adj visited stack = some (w, tr) →
    w = visited ∪ tr.toFinset ∧ tr.Nodup ∧ (∀ x ∈ tr, x ∉ visited) ∧
      (∀ x ∈ tr, (alistGet adj x).isSome) := by
  induction visited, stack using dfsLoop.induct adj with
  | case1 visited =>
    intro w tr hd
    rw [dfsLoop_nil] at hd
    obtain ⟨rfl, rfl⟩ : visited = w ∧ tr = [] := by
      simpa [Prod.ext_iff, eq_comm] using hd
    simp
  | case2 visited node rest h ih =>
    intro w tr hd
    rw [dfsLoop_cons_mem h] at hd
    exact ih hd
  | case3 visited node rest h hget =>
    intro w tr hd
    rw [dfsLoop_cons_none h hget] at hd
    exact absurd hd (by simp)
  | case4 visited node rest h neis hget hrec ih =>
    intro w tr hd
    rw [dfsLoop_cons_some h hget, hrec] at hd
    exact absurd hd (by simp)
  | case5 visited node rest h neis hget w0 tr0 hrec ih =>
    intro w tr hd
    rw [dfsLoop_cons_some h hget, hrec] at hd
    obtain ⟨rfl, rfl⟩ : w0 = w ∧ node :: tr0 = tr := by
      simpa [Prod.ext_iff] using hd
    obtain ⟨hw, hnd, hfresh, hkeys⟩ := ih hrec
    refine ⟨?_, ?_, ?_, ?_⟩
    · rw [hw]
      ext z
      simp only [Finset.mem_union, Finset.mem_insert, List.toFinset_cons, List.mem_toFinset]
      tauto
    · refine List.Nodup.cons (fun hmem => ?_) hnd
      exact hfresh node hmem (Finset.mem_insert_self _ _)
    · intro x hx
      rcases List.mem_cons.mp hx with rfl | hx2
      · exact h
      · exact fun hv => hfresh x hx2 (Finset.mem_insert_of_mem hv)
    · intro x hx
      rcases List.mem_cons.mp hx with rfl | hx2
      · rw [hget]; rfl
      · exact hkeys x hx2

theorem dfsLoop_trace_reach {adj : List (α × List α)}
    (visited : Finset α) (stack : List α) :
    ∀ {w : Finset α} {tr : List α}, dfsLoop adj visited stack = some (w, tr) →
    ∀ x ∈ tr, ∃ r ∈ stack, ReachA adj r x := by
  induction visited, stack using dfsLoop.induct adj with
  | case1 visited =>
    intro w tr hd
    rw [dfsLoop_nil] at hd
    obtain ⟨-, rfl⟩ : visited = w ∧ tr = [] := by
      simpa [Prod.ext_iff, eq_comm] using hd
    simp
  | case2 visited node rest h ih =>
    intro w tr hd x hx
    rw [dfsLoop_cons_mem h] at hd
    obtain ⟨r, hr, hrx⟩ := ih hd x hx
    exact ⟨r, List.mem_cons_of_mem _ hr, hrx⟩
  | case3 visited node rest h hget =>
    intro w tr hd
    rw [dfsLoop_cons_none h hget] at hd
    exact absurd hd (by simp)
  | case4 visited node rest h neis hget hrec ih =>
    intro w tr hd
    rw [dfsLoop_cons_some h hget, hrec] at hd
    exact absurd hd (by simp)
  | case5 visited node rest h neis hget w0 tr0 hrec ih =>
    intro w tr hd x hx
    rw [dfsLoop_cons_some h hget, hrec] at hd
    obtain ⟨rfl, rfl⟩ : w0 = w ∧ node :: tr0 = tr := by
      simpa [Prod.ext_iff] using hd
    rcases List.mem_cons.mp hx with rfl | hx2
    · exact ⟨x, List.mem_cons_self _ _, Relation.ReflTransGen.refl⟩
    · obtain ⟨r, hr, hrx⟩ := ih hrec x hx2
      rcases List.mem_append.mp hr with hr1 | hr2
      · have hrn : r ∈ neis := (List.mem_filter.mp (List.mem_reverse.mp hr1)).1
        exact ⟨node, List.mem_cons_self _ _,
          Relation.ReflTransGen.head ⟨neis, hget, hrn⟩ hrx⟩
      · exact ⟨r, List.mem_cons_of_mem _ hr2, hrx⟩

theorem dfsLoop_closed {adj : List (α × List α)}
    (visited : Finset α) (stack : List α) :
    ∀ {w : Finset α} {tr : List α}, dfsLoop adj visited stack = some (w, tr) →
    (∀ x ∈ visited, ∀ y, adjMem adj x y → y ∈ visited ∨ y ∈ stack) →
    ∀ x ∈ w, ∀ y, adjMem adj x y → y ∈ w := by
  induction visited, stack using dfsLoop.induct adj with
  | case1 visited =>
    intro w tr hd hP
    rw [dfsLoop_nil] at hd
    obtain ⟨rfl, -⟩ : visited = w ∧ tr = [] := by
      simpa [Prod.ext_iff, eq_comm] using hd
    intro x hx y hy
    rcases hP x hx y hy with hv | hnil
    · exact hv
    · exact absurd hnil (List.not_mem_nil y)
  | case2 visited node rest h ih =>
    intro w tr hd hP
    rw [dfsLoop_cons_mem h] at hd
    refine ih hd (fun x hx y hy => ?_)
    rcases hP x hx y hy with hv | hcons
    · exact Or.inl hv
    · rcases List.mem_cons.mp hcons with rfl | h2
      · exact Or.inl h
      · exact Or.inr h2
  | case3 visited node rest h hget =>
    intro w tr hd
    rw [dfsLoop_cons_none h hget] at hd
    exact absurd hd (by simp)
  | case4 visited node rest h neis hget hrec ih =>
    intro w tr hd
    rw [dfsLoop_cons_some h hget, hrec] at hd
    exact absurd hd (by simp)
  | case5 visited node rest h neis hget w0 tr0 hrec ih =>
    intro w tr hd hP
    rw [dfsLoop_cons_some h hget, hrec] at hd
    obtain ⟨rfl, -⟩ : w0 = w ∧ node :: tr0 = tr := by
      simpa [Prod.ext_iff] using hd
    refine ih hrec (fun x hx y hy => ?_)
    rcases Finset.mem_insert.mp hx with rfl | hx2
    · obtain ⟨l, hl, hyl⟩ := hy
      rw [hget] at hl
      obtain rfl : neis = l := Option.some_injective _ hl
      by_cases hyv : y ∈ insert x visited
      · exact Or.inl hyv
      · refine Or.inr (List.mem_append.mpr (Or.inl ?_))
        rw [List.mem_reverse]
        exact List.mem_filter.mpr ⟨hyl, by simpa using hyv⟩
    · rcases hP x hx2 y hy with hv | hcons
      · exact Or.inl (Finset.mem_insert_of_mem hv)
      · rcases List.mem_cons.mp hcons with rfl | h2
        · exact Or.inl (Finset.mem_insert_self _ _)
        · exact Or.inr (List.mem_append.mpr (Or.inr h2))

theorem dfsLoop_visited_subset {adj : List (α × List α)} {visited : Finset α}
    {stack : List α} {w : Finset α} {tr : List α}
    (hd : dfsLoop adj visited stack = some (w, tr)) : visited ⊆ w := by
  obtain ⟨hw, -, -, -⟩ := dfsLoop_some_shape visited stack hd
  rw [hw]
  exact Finset.subset_union_left

theorem dfsLoop_root_mem {adj : List (α × List α)} {visited : Finset α}
    {node : α} {rest : List α} {w : Finset α} {tr : List α} (h : node ∉ visited)
    (hd : dfsLoop adj visited (node :: rest) = some (w, tr)) : node ∈ w := by
  cases hget : alistGet adj node with
  | none => rw [dfsLoop_cons_none h hget] at hd; exact absurd hd (by simp)
  | some neis =>
    rw [dfsLoop_cons_some h hget] at hd
    cases hrec : dfsLoop adj (insert node visited)
        ((neis.filter (fun x => decide (x ∉ insert node visited))).reverse ++ rest) with
    | none => rw [hrec] at hd; exact absurd hd (by simp)
    | some p =>
      rw [hrec] at hd
      obtain ⟨w0, tr0⟩ := p
      obtain ⟨rfl, -⟩ : w0 = w ∧ node :: tr0 = tr := by
        simpa [Prod.ext_iff] using hd
      exact dfsLoop_visited_subset hrec (Finset.mem_insert_self _ _)

theorem reachA_subset_of_closed {adj : List (α × List α)} {w : Finset α}
    (hclosed : ∀ x ∈ w, ∀ y, adjMem adj x y → y ∈ w) {r u : α} (hr : r ∈ w)
    (hru : ReachA adj r u) : u ∈ w := by
  induction hru with
  | refl => exact hr
  | tail _ hstep ih => exact hclosed _ ih _ hstep

theorem reachA_symm {adj : List (α × List α)}
    (hsymm : ∀ x y, adjMem adj x y → adjMem adj y x) {x y : α}
    (h : ReachA adj x y) : ReachA adj y x :=
  Relation.ReflTransGen.symmetric (fun _ _ hs => hsymm _ _ hs) h

/-! ## Lemmas about the component-counting loop -/

/-- Everything the component-counting loop guarantees, relative to a start
state `(visited, c)`: the roots `R` of the newly traversed components form a
system of pairwise unreachable fresh vertices, the count grows by exactly
`R.card`, every listed vertex ends up visited, the final visited set `w` is
the start set plus the classes of the roots, and the visit trace `tr` lists
each newly visited vertex exactly once. -/
structure CompSpec (adj : List (α × List α)) (vs : List α) (visited : Finset α)
    (c n : ℕ) (w : Finset α) (tr : List α) (R : Finset α) : Prop where
  count : n = c + R.card
  roots_mem : ∀ r ∈ R, r ∈ vs
  roots_fresh : ∀ r ∈ R, r ∉ visited
  roots_pairwise : ∀ r ∈ R, ∀ r2 ∈ R, ReachA adj r r2 → r = r2
  covers : ∀ v ∈ vs, v ∈ w
  class_of : ∀ x ∈ w, x ∈ visited ∨ ∃ r ∈ R, ReachA adj r x
  class_subset : ∀ r ∈ R, ∀ u, ReachA adj r u → u ∈ w
  mono : visited ⊆ w
  closed : ∀ x ∈ w, ∀ y, adjMem adj x y → y ∈ w
  w_eq : w = visited ∪ tr.toFinset
  tr_nodup : tr.Nodup
  tr_fresh : ∀ x ∈ tr, x ∉ visited
  tr_keys : ∀ x ∈ tr, (alistGet adj x).isSome

theorem countComponents_isSome {adj : List (α × List α)}
    (hvals : ∀ x y, adjMem adj x y → (alistGet adj y).isSome)
    (vs : List α) (visited : Finset α) (c : ℕ)
    (hkeys : ∀ x ∈ vs, (alistGet adj x).isSome) :
    (countComponents adj vs visited c).isSome := by
  induction vs generalizing visited c with
  | nil => simp [countComponents]
  | cons v rest ih =>
    unfold countComponents
    by_cases hv : v ∈ visited
    · rw [if_pos hv]
      exact ih visited c (fun x hx => hkeys x (List.mem_cons_of_mem _ hx))
    · rw [if_neg hv]
      have hdfs : (dfsLoop adj visited [v]).isSome := by
        refine dfsLoop_isSome hvals visited [v] (fun x hx => ?_)
        obtain rfl : x = v := by simpa using hx
        exact Or.inr (hkeys x (List.mem_cons_self _ _))
      obtain ⟨p, hp⟩ := Option.isSome_iff_exists.mp hdfs
      obtain ⟨w1, tr1⟩ := p
      have h2 := ih w1 (c + 1) (fun x hx => hkeys x (List.mem_cons_of_mem _ hx))
      obtain ⟨q, hq⟩ := Option.isSome_iff_exists.mp h2
      obtain ⟨n, w2, tr2⟩ := q
      simp [hp, hq]

theorem countComponents_spec {adj : List (α × List α)}
    (hvals : ∀ x y, adjMem adj x y → (alistGet adj y).isSome)
    (hsymm : ∀ x y, adjMem adj x y → adjMem adj y x)
    (vs : List α) (visited : Finset α) (c : ℕ)
    (hclosed : ∀ x ∈ visited, ∀ y, adjMem adj x y → y ∈ visited) :
    ∀ {n : ℕ} {w : Finset α} {tr : List α},
    countComponents adj vs visited c = some (n, w, tr) →
    ∃ R : Finset α, CompSpec adj vs visited c n w tr R := by
  induction vs generalizing visited c with
  | nil =>
    intro n w tr h
    obtain ⟨rfl, rfl, rfl⟩ : c = n ∧ visited = w ∧ ([] : List α) = tr := by
      simpa [countComponents, Prod.ext_iff] using h
    refine ⟨∅, ?_⟩
    constructor
    · simp
    · simp
    · simp
    · simp
    · simp
    · exact fun x hx => Or.inl hx
    · simp
    · exact fun x hx => hx
    · exact hclosed
    · simp
    · exact List.nodup_nil
    · simp
    · simp
  | cons v rest ih =>
    intro n w tr h
    unfold countComponents at h
    by_cases hv : v ∈ visited
    · rw [if_pos hv] at h
      obtain ⟨R, hR⟩ := ih visited c hclosed h
      refine ⟨R, ?_⟩
      constructor
      · exact hR.count
      · exact fun r hr => List.mem_cons_of_mem _ (hR.roots_mem r hr)
      · exact hR.roots_fresh
      · exact hR.roots_pairwise
      · intro x hx
        rcases List.mem_cons.mp hx with rfl | hx2
        · exact hR.mono hv
        · exact hR.covers x hx2
      · exact hR.class_of
      · exact hR.class_subset
      · exact hR.mono
      · exact hR.closed
      · exact hR.w_eq
      · exact hR.tr_nodup
      · exact hR.tr_fresh
      · exact hR.tr_keys
    · rw [if_neg hv] at h
      cases hdfs : dfsLoop adj visited [v] with
      | none => rw [hdfs] at h; exact absurd h (by simp)
      | some p =>
        rw [hdfs] at h
        obtain ⟨w1, tr1⟩ := p
        replace h : (match countComponents adj rest w1 (c + 1) with
          | none => none
          | some (n2, w2, tr2) => some (n2, w2, tr1 ++ tr2)) = some (n, w, tr) := h
        cases hrec : countComponents adj rest w1 (c + 1) with
        | none => rw [hrec] at h; exact absurd h (by simp)
        | some q =>
          rw [hrec] at h
          obtain ⟨n2, w2, tr2⟩ := q
          obtain ⟨rfl, rfl, rfl⟩ : n2 = n ∧ w2 = w ∧ tr1 ++ tr2 = tr := by
            simpa [Prod.ext_iff] using h
          have hw1closed : ∀ x ∈ w1, ∀ y, adjMem adj x y → y ∈ w1 := by
            refine dfsLoop_closed visited [v] hdfs (fun x hx y hy => ?_)
            exact Or.inl (hclosed x hx y hy)
          have hvw1 : v ∈ w1 := dfsLoop_root_mem hv hdfs
          obtain ⟨hw1eq, htr1nd, htr1fresh, htr1keys⟩ := dfsLoop_some_shape visited [v] hdfs
          have hvisw1 : visited ⊆ w1 := dfsLoop_visited_subset hdfs
          obtain ⟨R2, hR2⟩ := ih w1 (c + 1) hw1closed hrec
          have hvR2 : v ∉ R2 := fun hmem => hR2.roots_fresh v hmem hvw1
          have hw1w2 : w1 ⊆ w2 := hR2.mono
          refine ⟨insert v R2, ?_⟩
          constructor
          · rw [Finset.card_insert_of_not_mem hvR2, hR2.count]
            omega
          · intro r hr
            rcases Finset.mem_insert.mp hr with rfl | hr2
            · exact List.mem_cons_self _ _
            · exact List.mem_cons_of_mem _ (hR2.roots_mem r hr2)
          · intro r hr
            rcases Finset.mem_insert.mp hr with rfl | hr2
            · exact hv
            · exact fun hmem => hR2.roots_fresh r hr2 (hvisw1 hmem)
          · intro r hr r2 hr2 hreach
            rcases Finset.mem_insert.mp hr with rfl | hrR <;>
              rcases Finset.mem_insert.mp hr2 with rfl | hr2R
            · rfl
            · exact absurd (reachA_subset_of_closed hw1closed hvw1 hreach)
                (hR2.roots_fresh r2 hr2R)
            · exact absurd
                (reachA_subset_of_closed hw1closed hvw1 (reachA_symm hsymm hreach))
                (hR2.roots_fresh r hrR)
            · exact hR2.roots_pairwise r hrR r2 hr2R hreach
          · intro x hx
            rcases List.mem_cons.mp hx with rfl | hx2
            · exact hw1w2 hvw1
            · exact hR2.covers x hx2
          · intro x hx
            rcases hR2.class_of x hx with hxw1 | ⟨r, hr, hreach⟩
            · rw [hw1eq] at hxw1
              rcases Finset.mem_union.mp hxw1 with hxv | hxtr
              · exact Or.inl hxv
              · obtain ⟨r, hr, hreach⟩ :=
                  dfsLoop_trace_reach visited [v] hdfs x (List.mem_toFinset.mp hxtr)
                obtain rfl : r = v := by simpa using hr
                exact Or.inr ⟨r, Finset.mem_insert_self _ _, hreach⟩
            · exact Or.inr ⟨r, Finset.mem_insert_of_mem hr, hreach⟩
          · intro r hr u hreach
            rcases Finset.mem_insert.mp hr with rfl | hr2
            · exact hw1w2 (reachA_subset_of_closed hw1closed hvw1 hreach)
            · exact hR2.class_subset r hr2 u hreach
          · exact hvisw1.trans hw1w2
          · exact hR2.closed
          · rw [hR2.w_eq, hw1eq]
            ext z
            simp only [Finset.mem_union, List.toFinset_append, List.mem_toFinset]
            tauto
          · rw [List.nodup_append]
            refine ⟨htr1nd, hR2.tr_nodup, fun x hx1 hx2 => ?_⟩
            have hxw1 : x ∈ w1 := by
              rw [hw1eq]
              exact Finset.mem_union_right _ (List.mem_toFinset.mpr hx1)
            exact hR2.tr_fresh x hx2 hxw1
          · intro x hx
            rcases List.mem_append.mp hx with hx1 | hx2
            · exact htr1fresh x hx1
            · exact fun hmem => hR2.tr_fresh x hx2 (hvisw1 hmem)
          · intro x hx
            rcases List.mem_append.mp hx with hx1 | hx2
            · exact htr1keys x hx1
            · exact hR2.tr_keys x hx2

/-! ## From the executable invariant engine to graph-theoretic components -/

theorem betti_full_spec {vs : List α} {es : List (α × α)}
    (hend : ∀ p ∈ es, p.1 ∈ vs ∧ p.2 ∈ vs) :
    ∃ (adj : List (α × List α)) (n : ℕ) (w : Finset α) (tr : List α) (R : Finset α),
      buildAdj vs es = some adj ∧
      countComponents adj vs ∅ 0 = some (n, w, tr) ∧
      betti_numbers_1d vs es =
        some ((n : ℤ), (es.length : ℤ) - (vs.length : ℤ) + (n : ℤ)) ∧
      n = R.card ∧ IsRepSystem vs es R ∧
      tr.Nodup ∧ (∀ x, x ∈ tr ↔ x ∈ vs) := by
  obtain ⟨adj, hadj⟩ := Option.isSome_iff_exists.mp (buildAdj_isSome hend)
  have hAM : ∀ x y, adjMem adj x y ↔ adjRel es x y := buildAdj_adjMem hadj
  have hvals : ∀ x y, adjMem adj x y → (alistGet adj y).isSome :=
    fun x y h => buildAdj_adjMem_isSome hadj h
  have hsymm : ∀ x y, adjMem adj x y → adjMem adj y x :=
    fun x y h => (hAM y x).mpr (adjRel_symm ((hAM x y).mp h))
  have hkeys : ∀ x ∈ vs, (alistGet adj x).isSome :=
    fun x hx => (buildAdj_keys hadj x).mpr hx
  obtain ⟨q, hq⟩ :=
    Option.isSome_iff_exists.mp (countComponents_isSome hvals vs ∅ 0 hkeys)
  obtain ⟨n, w, tr⟩ := q
  obtain ⟨R, hR⟩ := countComponents_spec hvals hsymm vs ∅ 0 (by simp) hq
  have hreach : ReachA adj = Reach es := by
    unfold ReachA Reach
    have : adjMem adj = adjRel es :=
      funext (fun x => funext (fun y => propext (hAM x y)))
    rw [this]
  refine ⟨adj, n, w, tr, R, hadj, hq, ?_, ?_, ?_, hR.tr_nodup, ?_⟩
  · simp [betti_numbers_1d, hadj, hq]
  · have := hR.count
    omega
  · refine ⟨hR.roots_mem, ?_, ?_⟩
    · intro v hv
      rcases hR.class_of v (hR.covers v hv) with hempty | ⟨r, hr, hrv⟩
      · exact absurd hempty (Finset.not_mem_empty v)
      · exact ⟨r, hr, by rw [← hreach]; exact hrv⟩
    · intro r hr r2 hr2 hrr
      exact hR.roots_pairwise r hr r2 hr2 (by rw [hreach]; exact hrr)
  · intro x
    constructor
    · intro hx
      have := hR.tr_keys x hx
      exact (buildAdj_keys hadj x).mp this
    · intro hx
      have hxw : x ∈ w := hR.covers x hx
      rw [hR.w_eq] at hxw
      rcases Finset.mem_union.mp hxw with h1 | h2
      · exact absurd h1 (Finset.not_mem_empty x)
      · exact List.mem_toFinset.mp h2

/-! ## Graph-theoretic facts about reachability and component counts -/

omit [LinearOrder α] in
theorem reach_refl {es : List (α × α)} {x : α} : Reach es x x :=
  Relation.ReflTransGen.refl

omit [LinearOrder α] in
theorem reach_trans {es : List (α × α)} {x y z : α} (h1 : Reach es x y)
    (h2 : Reach es y z) : Reach es x z :=
  Relation.ReflTransGen.trans h1 h2

omit [LinearOrder α] in
theorem reach_symm {es : List (α × α)} {x y : α} (h : Reach es x y) : Reach es y x :=
  Relation.ReflTransGen.symmetric (fun _ _ hs => adjRel_symm hs) h

omit [LinearOrder α] in
theorem reach_nil {x y : α} : Reach ([] : List (α × α)) x y ↔ x = y := by
  constructor
  · intro h
    induction h with
    | refl => rfl
    | tail _ hstep ih =>
      rcases hstep with h1 | h1 <;> exact absurd h1 (List.not_mem_nil _)
  · rintro rfl
    exact reach_refl

omit [LinearOrder α] in
theorem reach_mono {e : α × α} {es : List (α × α)} {x y : α} (h : Reach es x y) :
    Reach (e :: es) x y :=
  Relation.ReflTransGen.mono
    (fun _ _ hs => hs.imp (List.mem_cons_of_mem _) (List.mem_cons_of_mem _)) h

omit [LinearOrder α] in
theorem reach_cons {a b : α} {es : List (α × α)} {x y : α} :
    Reach ((a, b) :: es) x y ↔
      Reach es x y ∨ (Reach es x a ∧ Reach es b y) ∨
        (Reach es x b ∧ Reach es a y) := by
  constructor
  · intro h
    induction h with
    | refl => exact Or.inl reach_refl
    | @tail m z hxm hstep ih =>
      have hstep2 : ((m, z) = (a, b) ∨ (m, z) ∈ es) ∨
          ((z, m) = (a, b) ∨ (z, m) ∈ es) := by
        rcases hstep with h1 | h1
        · exact Or.inl (List.mem_cons.mp h1)
        · exact Or.inr (List.mem_cons.mp h1)
      rcases hstep2 with hmz | hmz
      · rcases hmz with hmz | hmz
        · obtain ⟨rfl, rfl⟩ : m = a ∧ z = b := by simpa [Prod.ext_iff] using hmz
          rcases ih with hxa | ⟨hxa, hbm⟩ | ⟨hxb, ham⟩
          · exact Or.inr (Or.inl ⟨hxa, reach_refl⟩)
          · exact Or.inl (reach_trans hxa (reach_symm hbm))
          · exact Or.inl hxb
        · have hadj : adjRel es m z := Or.inl hmz
          rcases ih with hxm2 | ⟨hxa, hbm⟩ | ⟨hxb, ham⟩
          · exact Or.inl (hxm2.tail hadj)
          · exact Or.inr (Or.inl ⟨hxa, hbm.tail hadj⟩)
          · exact Or.inr (Or.inr ⟨hxb, ham.tail hadj⟩)
      · rcases hmz with hmz | hmz
        · obtain ⟨rfl, rfl⟩ : z = a ∧ m = b := by simpa [Prod.ext_iff] using hmz
          rcases ih with hxm2 | ⟨hxa, hbm⟩ | ⟨hxb, ham⟩
          · exact Or.inr (Or.inr ⟨hxm2, reach_refl⟩)
          · exact Or.inl hxa
          · exact Or.inl (reach_trans hxb (reach_symm ham))
        · have hadj : adjRel es m z := Or.inr hmz
          rcases ih with hxm2 | ⟨hxa, hbm⟩ | ⟨hxb, ham⟩
          · exact Or.inl (hxm2.tail hadj)
          · exact Or.inr (Or.inl ⟨hxa, hbm.tail hadj⟩)
          · exact Or.inr (Or.inr ⟨hxb, ham.tail hadj⟩)
  · intro h
    have hab : Reach ((a, b) :: es) a b :=
      Relation.ReflTransGen.single (Or.inl (List.mem_cons_self _ _))
    rcases h with h0 | ⟨hxa, hby⟩ | ⟨hxb, hay⟩
    · exact reach_mono h0
    · exact reach_trans (reach_mono hxa) (reach_trans hab (reach_mono hby))
    · exact reach_trans (reach_mono hxb)
        (reach_trans (reach_symm hab) (reach_mono hay))

theorem exists_repSystem (vs : List α) (es : List (α × α)) :
    ∃ R : Finset α, IsRepSystem vs es R := by
  classical
  refine ⟨vs.toFinset.filter (fun v => ∀ u ∈ vs, Reach es v u → v ≤ u), ?_, ?_, ?_⟩
  · intro r hr
    exact List.mem_toFinset.mp (Finset.mem_filter.mp hr).1
  · intro v hv
    have hCne : (vs.toFinset.filter (fun u => Reach es v u)).Nonempty :=
      ⟨v, Finset.mem_filter.mpr ⟨List.mem_toFinset.mpr hv, reach_refl⟩⟩
    set m := (vs.toFinset.filter (fun u => Reach es v u)).min' hCne with hm
    have hmmem := (vs.toFinset.filter (fun u => Reach es v u)).min'_mem hCne
    have hmv : Reach es v m := (Finset.mem_filter.mp hmmem).2
    refine ⟨m, Finset.mem_filter.mpr ⟨(Finset.mem_filter.mp hmmem).1, ?_⟩, reach_symm hmv⟩
    intro u hu hmu
    exact Finset.min'_le _ u (Finset.mem_filter.mpr
      ⟨List.mem_toFinset.mpr hu, reach_trans hmv hmu⟩)
  · intro r hr r2 hr2 hrr
    have h1 : r ≤ r2 :=
      (Finset.mem_filter.mp hr).2 r2 (List.mem_toFinset.mp (Finset.mem_filter.mp hr2).1) hrr
    have h2 : r2 ≤ r :=
      (Finset.mem_filter.mp hr2).2 r (List.mem_toFinset.mp (Finset.mem_filter.mp hr).1)
        (reach_symm hrr)
    exact le_antisymm h1 h2

omit [LinearOrder α] in
theorem isRepSystem_card_eq {vs : List α} {es : List (α × α)} {R1 R2 : Finset α}
    (h1 : IsRepSystem vs es R1) (h2 : IsRepSystem vs es R2) : R1.card = R2.card := by
  classical
  have key : ∀ A B : Finset α, IsRepSystem vs es A → IsRepSystem vs es B →
      A.card ≤ B.card := by
    intro A B hA hB
    have hex : ∀ a ∈ A, ∃ r ∈ B, Reach es r a := fun a ha => hB.2.1 a (hA.1 a ha)
    set g : α → α := fun a => if h : ∃ r ∈ B, Reach es r a then h.choose else a with hg
    have hgspec : ∀ a ∈ A, g a ∈ B ∧ Reach es (g a) a := by
      intro a ha
      have h := hex a ha
      have he : g a = h.choose := dif_pos h
      rw [he]
      exact h.choose_spec
    refine Finset.card_le_card_of_injOn g (fun a ha => (hgspec a ha).1) ?_
    intro a1 ha1 a2 ha2 heq
    have hs1 := hgspec a1 (Finset.mem_coe.mp ha1)
    have hs2 := hgspec a2 (Finset.mem_coe.mp ha2)
    have h12 : Reach es a1 a2 :=
      reach_trans (reach_symm hs1.2) (heq ▸ hs2.2)
    exact hA.2.2 a1 (Finset.mem_coe.mp ha1) a2 (Finset.mem_coe.mp ha2) h12
  exact le_antisymm (key R1 R2 h1 h2) (key R2 R1 h2 h1)

theorem repSystem_card_step {vs : List α} {a b : α} {es : List (α × α)}
    {R M : Finset α} (hR : IsRepSystem vs ((a, b) :: es) R)
    (hM : IsRepSystem vs es M) : M.card ≤ R.card + 1 := by
  classical
  set g : α → α := fun m => if h : ∃ r ∈ R, Reach ((a, b) :: es) r m then h.choose else m
    with hg
  have hgspec : ∀ m ∈ M, g m ∈ R ∧ Reach ((a, b) :: es) (g m) m := by
    intro m hm
    have h : ∃ r ∈ R, Reach ((a, b) :: es) r m := hR.2.1 m (hM.1 m hm)
    have he : g m = h.choose := dif_pos h
    rw [he]
    exact h.choose_spec
  have hcol : ∀ m1 ∈ M, ∀ m2 ∈ M, m1 ≠ m2 → g m1 = g m2 →
      (Reach es m1 a ∧ Reach es b m2) ∨ (Reach es m1 b ∧ Reach es a m2) := by
    intro m1 hm1 m2 hm2 hne hgeq
    obtain ⟨hgR1, hgr1⟩ := hgspec m1 hm1
    obtain ⟨hgR2, hgr2⟩ := hgspec m2 hm2
    have h12 : Reach ((a, b) :: es) m1 m2 :=
      reach_trans (reach_symm hgr1) (hgeq ▸ hgr2)
    rcases reach_cons.mp h12 with h0 | hcase | hcase
    · exact absurd (hM.2.2 m1 hm1 m2 hm2 h0) hne
    · exact Or.inl hcase
    · exact Or.inr hcase
  by_cases hinj : Set.InjOn g M
  · have := Finset.card_le_card_of_injOn g (fun m hm => (hgspec m hm).1) hinj
    omega
  · rw [Set.InjOn] at hinj
    push_neg at hinj
    obtain ⟨m1, hm1, m2, hm2, hgeq, hne⟩ := hinj
    have hm1M : m1 ∈ M := Finset.mem_coe.mp hm1
    have hm2M : m2 ∈ M := Finset.mem_coe.mp hm2
    obtain ⟨m0, hm0M, hbm0⟩ : ∃ m0 ∈ M, Reach es b m0 := by
      rcases hcol m1 hm1M m2 hm2M hne hgeq with ⟨-, h1b⟩ | ⟨h1b, -⟩
      · exact ⟨m2, hm2M, h1b⟩
      · exact ⟨m1, hm1M, reach_symm h1b⟩
    have hinj2 : Set.InjOn g (M.erase m0) := by
      intro x hx y hy hgxy
      by_contra hxy
      have hxM : x ∈ M := Finset.mem_of_mem_erase (Finset.mem_coe.mp hx)
      have hyM : y ∈ M := Finset.mem_of_mem_erase (Finset.mem_coe.mp hy)
      rcases hcol x hxM y hyM hxy hgxy with ⟨-, hby⟩ | ⟨hxb, -⟩
      · exact Finset.ne_of_mem_erase (Finset.mem_coe.mp hy)
          (hM.2.2 y hyM m0 hm0M (reach_trans (reach_symm hby) hbm0))
      · exact Finset.ne_of_mem_erase (Finset.mem_coe.mp hx)
          (hM.2.2 x hxM m0 hm0M (reach_trans hxb hbm0))
    have h1 : (M.erase m0).card ≤ R.card :=
      Finset.card_le_card_of_injOn g
        (fun m hm => (hgspec m (Finset.mem_of_mem_erase hm)).1) hinj2
    have h2 : (M.erase m0).card = M.card - 1 := Finset.card_erase_of_mem hm0M
    have h3 : 1 ≤ M.card := Finset.card_pos.mpr ⟨m0, hm0M⟩
    omega

theorem card_le_of_repSystem {vs : List α} {es : List (α × α)} :
    ∀ {R : Finset α}, IsRepSystem vs es R → vs.toFinset.card ≤ es.length + R.card := by
  induction es with
  | nil =>
    intro R hR
    have hsub : vs.toFinset ⊆ R := by
      intro v hv
      obtain ⟨r, hr, hrv⟩ := hR.2.1 v (List.mem_toFinset.mp hv)
      obtain rfl : r = v := reach_nil.mp hrv
      exact hr
    simpa using Finset.card_le_card hsub
  | cons e rest ih =>
    intro R hR
    obtain ⟨a, b⟩ := e
    obtain ⟨M, hM⟩ := exists_repSystem vs rest
    have hMR : M.card ≤ R.card + 1 := repSystem_card_step hR hM
    have hind := ih hM
    simp only [List.length_cons]
    omega

/-! ## Remaining claim theorems -/

/-- Claim C1: on every complex produced by `build`, `betti_numbers_1d`
succeeds and returns `beta1 = |E| - |V| + beta0` in exact integer
arithmetic, and this `beta1` is never negative. -/
theorem claim_C1_beta1_identity_nonneg (raw : List (α × α)) :
    ∃ b0 b1 : ℤ,
      betti_numbers_1d (simplicial_complex_from_edges raw).1
          (simplicial_complex_from_edges raw).2 = some (b0, b1) ∧
      b1 = ((simplicial_complex_from_edges raw).2.length : ℤ) -
          ((simplicial_complex_from_edges raw).1.length : ℤ) + b0 ∧
      0 ≤ b1 := by
  obtain ⟨adj, n, w, tr, R, hadj, hcc, hbetti, hnR, hrep, -, -⟩ :=
    betti_full_spec (fun p hp => build_endpoints_mem_verts raw hp)
  refine ⟨(n : ℤ), _, hbetti, rfl, ?_⟩
  have hineq := card_le_of_repSystem hrep
  have hlen : (simplicial_complex_from_edges raw).1.toFinset.card =
      (simplicial_complex_from_edges raw).1.length :=
    List.toFinset_card_of_nodup (build_verts_nodup raw)
  rw [hlen] at hineq
  omega

/-- Claim C2: on every complex produced by `build`, the Euler characteristic
computed by `euler_characteristic` from the two Betti numbers equals
`beta0 - beta1`, and this value coincides with the direct `V - E`
computation. -/
theorem claim_C2_chi_identity (raw : List (α × α)) :
    ∃ b0 b1 : ℤ,
      betti_numbers_1d (simplicial_complex_from_edges raw).1
          (simplicial_complex_from_edges raw).2 = some (b0, b1) ∧
      euler_characteristic b0 b1 = b0 - b1 ∧
      euler_characteristic b0 b1 =
        ((simplicial_complex_from_edges raw).1.length : ℤ) -
          ((simplicial_complex_from_edges raw).2.length : ℤ) := by
  obtain ⟨adj, n, w, tr, R, hadj, hcc, hbetti, hnR, hrep, -, -⟩ :=
    betti_full_spec (fun p hp => build_endpoints_mem_verts raw hp)
  refine ⟨(n : ℤ), _, hbetti, rfl, ?_⟩
  unfold euler_characteristic
  ring

/-- Claim C3: whenever every edge endpoint lies in the vertex list, the
`beta0` returned by `betti_numbers_1d` equals the number of connected
components of the graph, witnessed by a system of component representatives;
in particular a single isolated vertex yields `beta0 = 1`, `beta1 = 0`,
`chi = 1`. -/
theorem claim_C3_beta0_counts_components (vertices : List α) (edges : List (α × α))
    (h : ∀ e ∈ edges, e.1 ∈ vertices ∧ e.2 ∈ vertices) :
    (∃ b0 b1 : ℤ, ∃ R : Finset α,
      betti_numbers_1d vertices edges = some (b0, b1) ∧
      IsRepSystem vertices edges R ∧ b0 = (R.card : ℤ)) ∧
    ∀ a : α, betti_numbers_1d [a] ([] : List (α × α)) = some (1, 0) ∧
      euler_characteristic 1 0 = 1 := by
  constructor
  · obtain ⟨adj, n, w, tr, R, hadj, hcc, hbetti, hnR, hrep, -, -⟩ := betti_full_spec h
    refine ⟨(n : ℤ), _, R, hbetti, hrep, ?_⟩
    exact_mod_cast congrArg (fun k : ℕ => (k : ℤ)) hnR
  · intro a
    have hbadj : buildAdj [a] ([] : List (α × α)) = some [(a, ([] : List α))] := rfl
    have hget : alistGet [(a, ([] : List α))] a = some [] := by
      simp [alistGet]
    have hdfs : dfsLoop [(a, ([] : List α))] ∅ [a] = some ({a}, [a]) := by
      rw [dfsLoop_cons_some (Finset.not_mem_empty a) hget]
      simp [dfsLoop_nil]
    have hcc : countComponents [(a, ([] : List α))] [a] ∅ 0 = some (1, {a}, [a]) := by
      simp [countComponents, hdfs]
    constructor
    · have hval : betti_numbers_1d [a] ([] : List (α × α)) =
          some ((1 : ℤ), (0 : ℤ) - 1 + 1) := by
        simp [betti_numbers_1d, hbadj, hcc]
      rw [hval]
      norm_num
    · rfl

/-- Witness for C3 at the concrete complex with vertex list `[5]` and no
edges. -/
theorem claim_C3_witness :
    (∀ e ∈ ([] : List (ℕ × ℕ)), e.1 ∈ [5] ∧ e.2 ∈ [5]) ∧
    ((∃ b0 b1 : ℤ, ∃ R : Finset ℕ,
        betti_numbers_1d [5] ([] : List (ℕ × ℕ)) = some (b0, b1) ∧
        IsRepSystem [5] ([] : List (ℕ × ℕ)) R ∧ b0 = (R.card : ℤ)) ∧
      ∀ a : ℕ, betti_numbers_1d [a] ([] : List (ℕ × ℕ)) = some (1, 0) ∧
        euler_characteristic 1 0 = 1) :=
  ⟨by decide, claim_C3_beta0_counts_components [5] [] (by decide)⟩

/-- Claim C7: the empty input produces the empty complex without error, and
the invariants of the empty complex are `beta0 = 0`, `beta1 = 0`,
`chi = 0`. -/
theorem claim_C7_empty_input_total :
    simplicial_complex_from_edges ([] : List (α × α)) = ([], []) ∧
    betti_numbers_1d ([] : List α) ([] : List (α × α)) = some (0, 0) ∧
    euler_characteristic 0 0 = 0 := by
  refine ⟨rfl, ?_, rfl⟩
  have hval : betti_numbers_1d ([] : List α) ([] : List (α × α)) =
      some ((0 : ℤ), (0 : ℤ) - 0 + 0) := rfl
  rw [hval]
  norm_num

/-- Claim C8: on every complex whose edge endpoints all lie in its vertex
list, `betti_numbers_1d` is total: no adjacency-dictionary lookup fails. -/
theorem claim_C8_no_key_failure (vertices : List α) (edges : List (α × α))
    (h : ∀ e ∈ edges, e.1 ∈ vertices ∧ e.2 ∈ vertices) :
    (betti_numbers_1d vertices edges).isSome := by
  obtain ⟨adj, n, w, tr, R, hadj, hcc, hbetti, -⟩ := betti_full_spec h
  rw [hbetti]
  rfl

/-- Witness for C8 at the concrete complex `([1,2,3], [(1,2),(2,3)])`. -/
theorem claim_C8_witness :
    (∀ e ∈ [((1 : ℕ), 2), (2, 3)], e.1 ∈ [1, 2, 3] ∧ e.2 ∈ [1, 2, 3]) ∧
    (betti_numbers_1d [1, 2, 3] [((1 : ℕ), 2), (2, 3)]).isSome :=
  ⟨by decide, claim_C8_no_key_failure _ _ (by decide)⟩

/-- Claim C9: on every complex whose edge endpoints all lie in its vertex
list, the component-counting traversal terminates with a result, and over
the whole run each vertex of the complex is added to the visited set exactly
once (the visit trace is duplicate-free and enumerates exactly the
vertices). -/
theorem claim_C9_traversal_once (vertices : List α) (edges : List (α × α))
    (h : ∀ e ∈ edges, e.1 ∈ vertices ∧ e.2 ∈ vertices) :
    ∃ (adj : List (α × List α)) (n : ℕ) (w : Finset α) (tr : List α),
      buildAdj vertices edges = some adj ∧
      countComponents adj vertices ∅ 0 = some (n, w, tr) ∧
      tr.Nodup ∧ (∀ x, x ∈ tr ↔ x ∈ vertices) := by
  obtain ⟨adj, n, w, tr, R, hadj, hcc, hbetti, hnR, hrep, hnd, hiff⟩ := betti_full_spec h
  exact ⟨adj, n, w, tr, hadj, hcc, hnd, hiff⟩

/-- Witness for C9 at the concrete complex `([1,2], [(1,2)])`. -/
theorem claim_C9_witness :
    (∀ e ∈ [((1 : ℕ), 2)], e.1 ∈ [1, 2] ∧ e.2 ∈ [1, 2]) ∧
    ∃ (adj : List (ℕ × List ℕ)) (n : ℕ) (w : Finset ℕ) (tr : List ℕ),
      buildAdj [1, 2] [((1 : ℕ), 2)] = some adj ∧
      countComponents adj [1, 2] ∅ 0 = some (n, w, tr) ∧
      tr.Nodup ∧ (∀ x, x ∈ tr ↔ x ∈ [1, 2]) :=
  ⟨by decide, claim_C9_traversal_once _ _ (by decide)⟩

end CohomologyBot
